import Mathlib

/-!
Verification of the band-detection and weighted-statistics core of the
health_hackathon repository (src/core), against its natural-language
specification.

Embedding conventions.  Real-valued samples are modelled by exact rationals
(ℚ).  Where the Python code produces float NaN as a sentinel, the embedding
returns an `Option` value with `none` standing for NaN; a PSD bin that may be
non-finite (inf or NaN) is an `Option ℚ` with `none` for the non-finite case,
and sums over such bins propagate `none` exactly as float arithmetic
propagates non-finite values.  SciPy numerical routines (butter+filtfilt,
hilbert, welch) and the NumPy PCG64 generator are external library calls, not
code of this repository: they enter the embedding as explicit function
parameters (a band-pass application, a Hilbert magnitude, a PSD table, a
stream of index permutations drawn from a seed), while every line of
src/core arithmetic and control flow is translated directly.
-/

namespace Core

/-- Python `int()` applied to a float: truncation toward zero. -/
def pyTrunc (q : ℚ) : ℤ := if 0 ≤ q then ⌊q⌋ else ⌈q⌉

/-- NumPy `np.convolve(a, v)` in mode `full`: output index `k` sums
`a[j] * v[k-j]`; out-of-range factors contribute 0. -/
def npConvolveFull (a v : List ℚ) : List ℚ :=
  (List.range (a.length + v.length - 1)).map (fun k =>
    ((List.range (k + 1)).map (fun j => a.getD j 0 * v.getD (k - j) 0)).sum)

/-- NumPy `np.convolve(a, v, mode="same")`: the centered slice of the full
convolution, of length `max a.length v.length`. -/
def npConvolveSame (a v : List ℚ) : List ℚ :=
  ((npConvolveFull a v).drop ((min a.length v.length - 1) / 2)).take
    (max a.length v.length)

/-- Smoothing step of `compute_band_envelope` (src/core/band_detection.py,
lines 86-92): if `smooth_sec > 0`, convolve with a rectangular kernel
`np.ones(n_smooth) / n_smooth` where `n_smooth = max(1, int(smooth_sec * fs))`,
in mode `same`; otherwise return the raw envelope. -/
def smooth_envelope (envelope : List ℚ) (fs smooth_sec : ℚ) : List ℚ :=
  if 0 < smooth_sec then
    let n_smooth : ℕ := (max 1 (pyTrunc (smooth_sec * fs))).toNat
    let kernel := List.replicate n_smooth ((1 : ℚ) / n_smooth)
    npConvolveSame envelope kernel
  else envelope

/-- Butterworth band-edge computation of `compute_band_envelope`
(src/core/band_detection.py, lines 72-78): clamp and normalize the requested
band edges by the Nyquist frequency. -/
def normalized_cutoffs (fs f_low f_high : ℚ) : ℚ × ℚ :=
  let nyquist := fs / 2
  (max f_low 0.5 / nyquist, min f_high (nyquist - 0.5) / nyquist)

/-- `compute_band_envelope` (src/core/band_detection.py): per band, design the
clamped band-pass, filter (zero-phase), take the Hilbert magnitude, smooth.
The SciPy `butter`+`filtfilt` pipeline and `np.abs(hilbert(.))` are external
numerical routines, abstracted as the function parameters `bandpassFiltfilt`
(receiving the normalized cutoff pair) and `hilbertAbs`. -/
def compute_band_envelope (bandpassFiltfilt : ℚ × ℚ → List ℚ → List ℚ)
    (hilbertAbs : List ℚ → List ℚ) (lfp : List ℚ) (fs : ℚ)
    (bands : List (String × ℚ × ℚ)) (smooth_sec : ℚ) :
    List (String × List ℚ) :=
  bands.map (fun nb =>
    let cut := normalized_cutoffs fs nb.2.1 nb.2.2
    let filtered := bandpassFiltfilt cut lfp
    let envelope := hilbertAbs filtered
    (nb.1, smooth_envelope envelope fs smooth_sec))

/-- NumPy `np.percentile(xs, q)` with the default linear interpolation
method: sort, take the virtual index `h = q/100 * (n-1)`, and interpolate
between the two adjacent order statistics. -/
def npPercentile (xs : List ℚ) (q : ℚ) : ℚ :=
  let s := List.insertionSort (· ≤ ·) xs
  let h : ℚ := q / 100 * ((xs.length : ℚ) - 1)
  let i : ℕ := (⌊h⌋).toNat
  let lo := s.getD i 0
  let hi := s.getD (i + 1) lo
  lo + (h - (⌊h⌋ : ℚ)) * (hi - lo)

/-- NumPy `np.linspace(start, stop, num, endpoint=False)`. -/
def linspaceNoEndpoint (start stop : ℚ) (num : ℕ) : List ℚ :=
  let step := (stop - start) / (num : ℚ)
  (List.range num).map (fun i => start + (i : ℚ) * step)

/-- Result dictionary of `detect_significant_band_epochs`. -/
structure DetectResult where
  times : List ℚ
  envelopes : List (String × List ℚ)
  significant : List (String × List Bool)
  thresholds : List (String × ℚ)
deriving Repr

/-- `detect_significant_band_epochs` (src/core/band_detection.py, lines
97-155): compute per-band envelopes, an absolute time axis, and for each band
the `threshold_percentile`-th percentile of its whole envelope together with
the boolean mask `envelope >= threshold`. -/
def detect_significant_band_epochs
    (bandpassFiltfilt : ℚ × ℚ → List ℚ → List ℚ)
    (hilbertAbs : List ℚ → List ℚ) (lfp : List ℚ) (fs : ℚ)
    (t_start : ℚ) (smooth_sec : ℚ) (threshold_percentile : ℚ)
    (bands : List (String × ℚ × ℚ)) : DetectResult :=
  let envelopes :=
    compute_band_envelope bandpassFiltfilt hilbertAbs lfp fs bands smooth_sec
  let times :=
    linspaceNoEndpoint t_start (t_start + (lfp.length : ℚ) / fs) lfp.length
  let sigThr := envelopes.map (fun ne =>
    let thr := npPercentile ne.2 threshold_percentile
    (ne.1, ne.2.map (fun x => decide (thr ≤ x)), thr))
  { times := times
    envelopes := envelopes
    significant := sigThr.map (fun p => (p.1, p.2.1))
    thresholds := sigThr.map (fun p => (p.1, p.2.2)) }

/-- `apply_notch_filter` (src/core/band_detection.py, lines 162-192): with
`(b, a)` the iirnotch coefficient arrays (an external SciPy design routine,
passed in here), skip filtering when the signal is not longer than the
filtfilt padding length `3 * max(len(a), len(b))`, returning the input
values unchanged; otherwise apply zero-phase filtering (the external
`filtfilt`, abstracted as a function parameter). -/
def apply_notch_filter (filtfiltF : List ℚ → List ℚ → List ℚ → List ℚ)
    (b a : List ℚ) (lfp : List ℚ) : List ℚ :=
  let padlen := 3 * max a.length b.length
  if lfp.length ≤ padlen then lfp
  else filtfiltF b a lfp

/-- Float-style sum over PSD bins: `none` (a non-finite bin) poisons the
whole sum, as inf/NaN does in float arithmetic. -/
def fsum (xs : List (Option ℚ)) : Option ℚ :=
  xs.foldr (fun x acc =>
    match x, acc with
    | some a, some b => some (a + b)
    | _, _ => none) (some 0)

/-- Sum of the PSD bins whose frequency lies in `[f_low, f_high]`
(`psd[(freqs >= f_low) & (freqs <= f_high)].sum()`), over a Welch PSD table
given as (frequency, bin) pairs with `none` for a non-finite bin. -/
def psd_band_sum (psd : List (ℚ × Option ℚ)) (f_low f_high : ℚ) : Option ℚ :=
  fsum ((psd.filter (fun p =>
    decide (f_low ≤ p.1) && decide (p.1 ≤ f_high))).map Prod.snd)

/-- `compute_broadband_power` (src/core/band_detection.py, lines 199-233):
NaN (`none`) for signals shorter than 2 samples; otherwise the in-band PSD
sum, NaN when that sum is non-finite.  The Welch PSD of the signal is an
external SciPy routine, abstracted as the `psd` table parameter. -/
def compute_broadband_power (lfp : List ℚ) (psd : List (ℚ × Option ℚ))
    (f_low f_high : ℚ) : Option ℚ :=
  if lfp.length < 2 then none
  else psd_band_sum psd f_low f_high

/-- `compute_relative_band_power` (src/core/band_detection.py, lines
240-281): NaN (`none`) for signals shorter than 2 samples; NaN when the
total-range PSD sum is zero or non-finite; otherwise band sum over total
sum (NaN if the band sum itself is non-finite). -/
def compute_relative_band_power (lfp : List ℚ) (psd : List (ℚ × Option ℚ))
    (f_low f_high f_total_low f_total_high : ℚ) : Option ℚ :=
  if lfp.length < 2 then none
  else
    match psd_band_sum psd f_total_low f_total_high with
    | none => none
    | some total =>
      if total = 0 then none
      else (psd_band_sum psd f_low f_high).map (fun band_power => band_power / total)

/-- NumPy `np.dot` on two equal-length 1-d arrays. -/
def np_dot (a b : List ℚ) : ℚ := ((a.zip b).map (fun p => p.1 * p.2)).sum

/-- The inner `_wmean` of `weighted_permutation_test` (src/core/stats.py,
lines 64-66): normalize the weights by their sum and dot with the values. -/
def wmean (v w : List ℚ) : ℚ :=
  let wn := w.map (fun x => x / w.sum)
  np_dot wn v

/-- NumPy fancy indexing `xs[idx]` of a 1-d array by an index array. -/
def fancy_index (xs : List ℚ) (idx : List ℕ) : List ℚ :=
  idx.map (fun j => xs.getD j 0)

/-- Result tuple of `weighted_permutation_test` in the non-degenerate case. -/
structure PermTestResult where
  obs_delta : ℚ
  p_two_sided : ℚ
  p_one_sided : ℚ
  perm_dist : List ℚ
deriving Repr

/-- `weighted_permutation_test` (src/core/stats.py, lines 17-84): `none`
models the all-NaN degenerate return when either group has fewer than 2
members.  The NumPy generator `np.random.default_rng(seed)` is external; the
sequence of index permutations it yields (one `rng.permutation(n1+n2)` per
trial) is passed in as `perms`, and each trial reassigns the pooled
value/weight pairs by the same index array, first `n1` entries to
pseudo-group A and the rest to pseudo-group B. -/
def weighted_permutation_test (v1 w1 v2 w2 : List ℚ)
    (perms : List (List ℕ)) : Option PermTestResult :=
  let n1 := v1.length
  let n2 := v2.length
  if n1 < 2 ∨ n2 < 2 then none
  else
    let obs_delta := wmean v1 w1 - wmean v2 w2
    let pool_v := v1 ++ v2
    let pool_w := w1 ++ w2
    let perm_dist := perms.map (fun idx =>
      wmean (fancy_index pool_v (idx.take n1)) (fancy_index pool_w (idx.take n1)) -
      wmean (fancy_index pool_v (idx.drop n1)) (fancy_index pool_w (idx.drop n1)))
    let p_two := ((perm_dist.filter (fun d =>
      decide (|obs_delta| ≤ |d|))).length : ℚ) / (perm_dist.length : ℚ)
    let p_one := ((perm_dist.filter (fun d =>
      decide (obs_delta ≤ d))).length : ℚ) / (perm_dist.length : ℚ)
    some ⟨obs_delta, p_two, p_one, perm_dist⟩

/-- `weighted_permutation_test` with its seed argument: the NumPy generator
construction `np.random.default_rng(seed)` followed by `n_perm` draws of
`rng.permutation(n1 + n2)` is a pure function of the seed, abstracted as
`rngPermutations seed (n1 + n2) n_perm`. -/
def weighted_permutation_test_seeded
    (rngPermutations : ℕ → ℕ → ℕ → List (List ℕ)) (seed n_perm : ℕ)
    (v1 w1 v2 w2 : List ℚ) : Option PermTestResult :=
  weighted_permutation_test v1 w1 v2 w2
    (rngPermutations seed (v1.length + v2.length) n_perm)

/-- NumPy `astype(int)` of one boolean entry. -/
def boolToInt (b : Bool) : ℤ := if b then 1 else 0

/-- `np.diff(sig.astype(int))` in `plot_band_activity`
(src/core/plot_bands.py, line 151). -/
def np_diff_changes (sig : List Bool) : List ℤ :=
  (List.range (sig.length - 1)).map (fun i =>
    boolToInt (sig.getD (i + 1) false) - boolToInt (sig.getD i false))

/-- Run starts of `plot_band_activity`: `np.where(changes == 1)[0] + 1`,
with 0 prepended when the mask begins True (src/core/plot_bands.py,
lines 152-157). -/
def run_starts (sig : List Bool) : List ℕ :=
  (if sig.getD 0 false then [0] else []) ++
    ((List.range (sig.length - 1)).filter (fun i =>
      decide ((np_diff_changes sig).getD i 0 = 1))).map (fun i => i + 1)

/-- Run ends of `plot_band_activity`: `np.where(changes == -1)[0] + 1`, with
`len(sig)` appended when the mask ends True (src/core/plot_bands.py,
lines 153-159). -/
def run_ends (sig : List Bool) : List ℕ :=
  ((List.range (sig.length - 1)).filter (fun i =>
    decide ((np_diff_changes sig).getD i 0 = -1))).map (fun i => i + 1) ++
    (if sig.getD (sig.length - 1) false then [sig.length] else [])

/-- The interval merger of `plot_band_activity` (src/core/plot_bands.py,
lines 144-163): pair run starts with run ends and emit
`(times[s], times[e-1] + dt)` where `dt = times[1] - times[0]`. -/
def merged_intervals (sig : List Bool) (times : List ℚ) : List (ℚ × ℚ) :=
  let dt := times.getD 1 0 - times.getD 0 0
  ((run_starts sig).zip (run_ends sig)).map (fun se =>
    (times.getD se.1 0, times.getD (se.2 - 1) 0 + dt))

/-- Reference run-length encoding: the maximal contiguous True runs of a
mask, in index order, each as a half-open pair `(s, e)`. -/
def trueRuns : List Bool → List (ℕ × ℕ)
  | [] => []
  | b :: t =>
    let r := (trueRuns t).map (fun p => (p.1 + 1, p.2 + 1))
    if b then
      match r with
      | (1, e) :: rest => (0, e) :: rest
      | _ => (0, 1) :: r
    else r

/-- A maximal contiguous True run `[s, e)` of a boolean mask, stated the way
the claim states it: all samples in `[s, e)` are True and the run extends
neither left nor right. -/
def IsMaximalRun (m : List Bool) (s e : ℕ) : Prop :=
  s < e ∧ e ≤ m.length ∧ (∀ i, s ≤ i → i < e → m.getD i false = true) ∧
  (s = 0 ∨ m.getD (s - 1) false = false) ∧
  (e = m.length ∨ m.getD e false = false)

/-- Claim-side formulation (for the refinement statement of the permutation
test): the weighted mean of a list of (value, weight) pairs, keeping each
weight with its value. -/
def wmean_pairs (ps : List (ℚ × ℚ)) : ℚ :=
  wmean (ps.map Prod.fst) (ps.map Prod.snd)

/-- Claim-side formulation of one null-distribution value: permute the
pooled (value, weight) pairs by the index array `idx` — pairing preserved —
assign the first n1 entries to pseudo-group A, the rest to pseudo-group B,
and take the difference of weighted means. -/
def paired_null_value (v1 w1 v2 w2 : List ℚ) (idx : List ℕ) : ℚ :=
  let pool := (v1 ++ v2).zip (w1 ++ w2)
  wmean_pairs ((idx.take v1.length).map (fun j => pool.getD j (0, 0))) -
    wmean_pairs ((idx.drop v1.length).map (fun j => pool.getD j (0, 0)))

/-- `sig_label` (src/core/stats.py, lines 87-114): significance stars from a
p-value; the input is `none` for Python `None` or float NaN. -/
def sig_label (p : Option ℚ) : String :=
  match p with
  | none => "n.a."
  | some p =>
    if p < 0.001 then "***"
    else if p < 0.01 then "**"
    else if p < 0.05 then "*"
    else "ns"

/-- `eta_sq_label` (src/core/stats.py, lines 117-144): qualitative effect-size
label for eta squared; the input is `none` for Python `None` or float NaN. -/
def eta_sq_label (eta2 : Option ℚ) : String :=
  match eta2 with
  | none => "n.a."
  | some e =>
    if e < 0.01 then "négligeable"
    else if e < 0.06 then "petit"
    else if e < 0.14 then "moyen"
    else "grand"

/-! ## Helper lemmas -/

/-- Looking a key up in an association list after mapping its values. -/
theorem lookup_map_value {α β γ : Type} [BEq α] (g : β → γ)
    (l : List (α × β)) (k : α) :
    (l.map (fun p => (p.1, g p.2))).lookup k = Option.map g (l.lookup k) := by
  induction l with
  | nil => rfl
  | cons a t ih =>
    simp only [List.map_cons, List.lookup]
    cases k == a.1 <;> simp [ih]

/-- A successful lookup in a key-preserving map of an association list comes
from some underlying entry. -/
theorem lookup_map_mem {α β γ : Type} [BEq α] (g : α × β → γ)
    (l : List (α × β)) (k : α) (c : γ)
    (h : (l.map (fun p => (p.1, g p))).lookup k = some c) :
    ∃ p ∈ l, c = g p := by
  induction l with
  | nil => simp [List.lookup] at h
  | cons a t ih =>
    simp only [List.map_cons, List.lookup] at h
    cases hk : k == a.1
    · rw [hk] at h
      obtain ⟨p, hp, hc⟩ := ih h
      exact ⟨p, List.mem_cons_of_mem _ hp, hc⟩
    · rw [hk] at h
      simp only [Option.some.injEq] at h
      exact ⟨a, List.mem_cons_self _ _, h.symm⟩

/-- Monotonicity of indexing into a sorted list, any defaults. -/
theorem sorted_getD_le (s : List ℚ) (hs : s.Sorted (· ≤ ·)) (j k : ℕ)
    (d1 d2 : ℚ) (hjk : j ≤ k) (hk : k < s.length) :
    s.getD j d1 ≤ s.getD k d2 := by
  rcases eq_or_lt_of_le hjk with rfl | hlt
  · rw [List.getD_eq_getElem _ _ hk, List.getD_eq_getElem _ _ hk]
  · rw [List.getD_eq_getElem _ _ (lt_trans hlt hk), List.getD_eq_getElem _ _ hk]
    exact List.pairwise_iff_getElem.mp hs j k _ _ hlt

/-- The percentile definition, with its local bindings expanded. -/
theorem npPercentile_eq (xs : List ℚ) (q : ℚ) :
    npPercentile xs q =
      (List.insertionSort (· ≤ ·) xs).getD
          ((⌊q / 100 * ((xs.length : ℚ) - 1)⌋).toNat) 0 +
        (q / 100 * ((xs.length : ℚ) - 1) -
            ((⌊q / 100 * ((xs.length : ℚ) - 1)⌋ : ℤ) : ℚ)) *
          ((List.insertionSort (· ≤ ·) xs).getD
              ((⌊q / 100 * ((xs.length : ℚ) - 1)⌋).toNat + 1)
              ((List.insertionSort (· ≤ ·) xs).getD
                ((⌊q / 100 * ((xs.length : ℚ) - 1)⌋).toNat) 0) -
            (List.insertionSort (· ≤ ·) xs).getD
              ((⌊q / 100 * ((xs.length : ℚ) - 1)⌋).toNat) 0) := rfl

/-- A percentile (for q in [0, 100]) of a nonempty list never exceeds some
element of the list: linear interpolation stays within the order statistics. -/
theorem npPercentile_le_of_mem (xs : List ℚ) (q : ℚ) (hne : xs ≠ [])
    (h0 : 0 ≤ q) (h100 : q ≤ 100) :
    ∃ x ∈ xs, npPercentile xs q ≤ x := by
  have hperm := List.perm_insertionSort (· ≤ ·) xs
  have hsorted := List.sorted_insertionSort (· ≤ ·) xs
  rw [npPercentile_eq]
  set s := List.insertionSort (· ≤ ·) xs with hs
  have hlen : s.length = xs.length := hperm.length_eq
  have hn : 1 ≤ xs.length := List.length_pos.mpr hne
  set h : ℚ := q / 100 * ((xs.length : ℚ) - 1) with hdef
  have hh0 : 0 ≤ h := by
    apply mul_nonneg (div_nonneg h0 (by norm_num))
    have : (1 : ℚ) ≤ (xs.length : ℚ) := by exact_mod_cast hn
    linarith
  have hh1 : h ≤ (xs.length : ℚ) - 1 := by
    have hq1 : q / 100 ≤ 1 := (div_le_one (by norm_num)).mpr h100
    have hnn : (0 : ℚ) ≤ (xs.length : ℚ) - 1 := by
      have : (1 : ℚ) ≤ (xs.length : ℚ) := by exact_mod_cast hn
      linarith
    nlinarith
  have hfl0 : 0 ≤ ⌊h⌋ := Int.floor_nonneg.mpr hh0
  have hfl1 : ⌊h⌋ ≤ (xs.length : ℤ) - 1 := by
    have hc : ((xs.length : ℤ) : ℚ) - 1 = ((xs.length : ℚ) - 1) := by
      push_cast
      ring
    have h2 : ⌊h⌋ ≤ ⌊(xs.length : ℚ) - 1⌋ := Int.floor_le_floor hh1
    rwa [← hc,
      show ((xs.length : ℤ) : ℚ) - 1 = (((xs.length : ℤ) - 1 : ℤ) : ℚ) by
        push_cast
        ring,
      Int.floor_intCast] at h2
  have hi_le : (⌊h⌋).toNat ≤ xs.length - 1 := by omega
  set i : ℕ := (⌊h⌋).toNat with hidef
  have hfr0 : 0 ≤ h - (⌊h⌋ : ℚ) := by
    have := Int.floor_le h
    linarith
  have hfr1 : h - (⌊h⌋ : ℚ) < 1 := by
    have := Int.lt_floor_add_one h
    linarith
  have hxm : s.getD (xs.length - 1) 0 ∈ xs := by
    refine hperm.mem_iff.mp ?_
    rw [List.getD_eq_getElem _ _ (by omega)]
    exact List.getElem_mem _
  refine ⟨s.getD (xs.length - 1) 0, hxm, ?_⟩
  have hlo_le : s.getD i 0 ≤ s.getD (xs.length - 1) 0 :=
    sorted_getD_le s hsorted i (xs.length - 1) 0 0 hi_le (by omega)
  by_cases hcase : i + 1 < s.length
  · have hhi_le : s.getD (i + 1) (s.getD i 0) ≤ s.getD (xs.length - 1) 0 :=
      sorted_getD_le s hsorted (i + 1) (xs.length - 1) _ 0 (by omega) (by omega)
    have hlohi : s.getD i 0 ≤ s.getD (i + 1) (s.getD i 0) :=
      sorted_getD_le s hsorted i (i + 1) 0 _ (by omega) hcase
    have hmul : (h - (⌊h⌋ : ℚ)) * (s.getD (i + 1) (s.getD i 0) - s.getD i 0) ≤
        s.getD (i + 1) (s.getD i 0) - s.getD i 0 :=
      mul_le_of_le_one_left (by linarith) (le_of_lt hfr1)
    linarith
  · have hdefault : s.getD (i + 1) (s.getD i 0) = s.getD i 0 :=
      List.getD_eq_default _ _ (by omega)
    rw [hdefault]
    simp only [sub_self, mul_zero, add_zero]
    exact hlo_le

/-- Indexing a zip of equal-length lists with the pair default (0, 0) gives
the pair of the componentwise lookups, at every index. -/
theorem zip_getD (l1 l2 : List ℚ) (hlen : l1.length = l2.length) (j : ℕ) :
    (l1.zip l2).getD j (0, 0) = (l1.getD j 0, l2.getD j 0) := by
  induction l1 generalizing l2 j with
  | nil =>
    cases l2 with
    | nil => simp [List.zip]
    | cons b t2 => simp at hlen
  | cons a t ih =>
    cases l2 with
    | nil => simp at hlen
    | cons b t2 =>
      cases j with
      | zero => rfl
      | succ j =>
        simpa using ih t2 (by simpa using hlen) j

/-- A mode-same convolution of nonempty lists is nonempty. -/
theorem npConvolveSame_ne_nil (a v : List ℚ) (ha : a ≠ []) (hv : v ≠ []) :
    npConvolveSame a v ≠ [] := by
  have h1 : 1 ≤ a.length := List.length_pos.mpr ha
  have h2 : 1 ≤ v.length := List.length_pos.mpr hv
  rw [← List.length_pos]
  simp only [npConvolveSame, npConvolveFull, List.length_take,
    List.length_drop, List.length_map, List.length_range]
  omega

/-- Smoothing keeps a nonempty envelope nonempty. -/
theorem smooth_envelope_ne_nil (envelope : List ℚ) (fs smooth_sec : ℚ)
    (h : envelope ≠ []) : smooth_envelope envelope fs smooth_sec ≠ [] := by
  rw [smooth_envelope]
  split_ifs with hpos
  · apply npConvolveSame_ne_nil _ _ h
    have hk : 1 ≤ (max 1 (pyTrunc (smooth_sec * fs))).toNat := by
      have := le_max_left (1 : ℤ) (pyTrunc (smooth_sec * fs))
      omega
    rw [← List.length_pos, List.length_replicate]
    omega
  · exact h

/-- The significance masks of a detection result, as a value map over the
returned envelopes. -/
theorem detect_significant_eq (bf : ℚ × ℚ → List ℚ → List ℚ)
    (hil : List ℚ → List ℚ) (lfp : List ℚ) (fs t_start smooth_sec pct : ℚ)
    (bands : List (String × ℚ × ℚ)) :
    (detect_significant_band_epochs bf hil lfp fs t_start smooth_sec pct
        bands).significant =
      (detect_significant_band_epochs bf hil lfp fs t_start smooth_sec pct
          bands).envelopes.map
        (fun ne => (ne.1, ne.2.map (fun x =>
          decide (npPercentile ne.2 pct ≤ x)))) := by
  simp only [detect_significant_band_epochs, List.map_map]
  rfl

/-- The thresholds of a detection result, as a value map over the returned
envelopes. -/
theorem detect_thresholds_eq (bf : ℚ × ℚ → List ℚ → List ℚ)
    (hil : List ℚ → List ℚ) (lfp : List ℚ) (fs t_start smooth_sec pct : ℚ)
    (bands : List (String × ℚ × ℚ)) :
    (detect_significant_band_epochs bf hil lfp fs t_start smooth_sec pct
        bands).thresholds =
      (detect_significant_band_epochs bf hil lfp fs t_start smooth_sec pct
          bands).envelopes.map
        (fun ne => (ne.1, npPercentile ne.2 pct)) := by
  simp only [detect_significant_band_epochs, List.map_map]
  rfl

/-! ## Claim theorems -/

/-- Claim C1: in the result of `detect_significant_band_epochs`, each band's
returned threshold is the `pct`-th percentile of that band's entire returned
envelope, and the returned mask marks exactly the samples whose envelope is
at least the threshold (inclusive), so re-deriving the mask from the
returned envelope and threshold reproduces the returned mask. -/
theorem claim_C1_threshold_consistency (bf : ℚ × ℚ → List ℚ → List ℚ)
    (hil : List ℚ → List ℚ) (lfp : List ℚ) (fs t_start smooth_sec pct : ℚ)
    (bands : List (String × ℚ × ℚ)) (name : String) (env : List ℚ)
    (thr : ℚ) (mask : List Bool)
    (henv : (detect_significant_band_epochs bf hil lfp fs t_start smooth_sec
        pct bands).envelopes.lookup name = some env)
    (hthr : (detect_significant_band_epochs bf hil lfp fs t_start smooth_sec
        pct bands).thresholds.lookup name = some thr)
    (hmask : (detect_significant_band_epochs bf hil lfp fs t_start smooth_sec
        pct bands).significant.lookup name = some mask) :
    thr = npPercentile env pct ∧
    mask = env.map (fun x => decide (thr ≤ x)) := by
  rw [detect_significant_eq] at hmask
  rw [detect_thresholds_eq] at hthr
  have h1 := lookup_map_value
    (fun e : List ℚ => List.map (fun x => decide (npPercentile e pct ≤ x)) e)
    ((detect_significant_band_epochs bf hil lfp fs t_start smooth_sec pct
      bands).envelopes) name
  have h2 := lookup_map_value (fun e : List ℚ => npPercentile e pct)
    ((detect_significant_band_epochs bf hil lfp fs t_start smooth_sec pct
      bands).envelopes) name
  rw [henv] at h1 h2
  simp only [Option.map_some'] at h1 h2
  have hmask2 : some mask =
      some (List.map (fun x => decide (npPercentile env pct ≤ x)) env) :=
    hmask.symm.trans h1
  have hthr2 : some thr = some (npPercentile env pct) := hthr.symm.trans h2
  simp only [Option.some.injEq] at hmask2 hthr2
  subst hthr2
  exact ⟨rfl, hmask2⟩

/-- Witness for C1: a one-sample signal through identity filter stages at
percentile 75 gives threshold 2 and mask [true]. -/
theorem claim_C1_threshold_consistency_witness :
    (2 : ℚ) = npPercentile [2] 75 ∧
    [true] = ([(2 : ℚ)].map (fun x => decide ((2 : ℚ) ≤ x))) :=
  claim_C1_threshold_consistency (fun _ x => x) (fun x => x) [2] 1 0 0 75
    [("b", 1, 2)] "b" [2] 2 [true]
    (by norm_num [detect_significant_band_epochs, compute_band_envelope,
      smooth_envelope, List.lookup])
    (by norm_num [detect_significant_band_epochs, compute_band_envelope,
      smooth_envelope, List.lookup, npPercentile, List.insertionSort,
      List.orderedInsert])
    (by norm_num [detect_significant_band_epochs, compute_band_envelope,
      smooth_envelope, List.lookup, npPercentile, List.insertionSort,
      List.orderedInsert])

/-- Claim C10: for a nonempty input signal (the external filtering and
Hilbert stages preserve length) and a percentile in [0, 100], every band's
returned significance mask contains at least one True sample. -/
theorem claim_C10_mask_has_true (bf : ℚ × ℚ → List ℚ → List ℚ)
    (hil : List ℚ → List ℚ)
    (hbf : ∀ c x, (bf c x).length = x.length)
    (hhil : ∀ x, (hil x).length = x.length)
    (lfp : List ℚ) (fs t_start smooth_sec pct : ℚ)
    (bands : List (String × ℚ × ℚ)) (name : String) (mask : List Bool)
    (hlfp : lfp ≠ []) (h0 : 0 ≤ pct) (h100 : pct ≤ 100)
    (hmask : (detect_significant_band_epochs bf hil lfp fs t_start smooth_sec
        pct bands).significant.lookup name = some mask) :
    true ∈ mask := by
  have hsig : (detect_significant_band_epochs bf hil lfp fs t_start smooth_sec
      pct bands).significant =
      bands.map (fun nb => (nb.1,
        (smooth_envelope (hil (bf (normalized_cutoffs fs nb.2.1 nb.2.2) lfp))
            fs smooth_sec).map (fun x =>
          decide (npPercentile
            (smooth_envelope (hil (bf (normalized_cutoffs fs nb.2.1 nb.2.2)
              lfp)) fs smooth_sec) pct ≤ x)))) := by
    simp only [detect_significant_band_epochs, compute_band_envelope,
      List.map_map]
    rfl
  rw [hsig] at hmask
  obtain ⟨nb, _hnb, hval⟩ := lookup_map_mem _ bands name mask hmask
  set env := smooth_envelope (hil (bf (normalized_cutoffs fs nb.2.1 nb.2.2)
    lfp)) fs smooth_sec with henv
  have henv_ne : env ≠ [] := by
    apply smooth_envelope_ne_nil
    rw [← List.length_pos, hhil, hbf]
    exact List.length_pos.mpr hlfp
  obtain ⟨x, hx, hle⟩ := npPercentile_le_of_mem env pct henv_ne h0 h100
  rw [hval]
  exact List.mem_map.mpr ⟨x, hx, decide_eq_true hle⟩

/-- Witness for C10: the one-sample detection of the C1 witness yields the
mask [true], which contains True. -/
theorem claim_C10_mask_has_true_witness : true ∈ [true] :=
  claim_C10_mask_has_true (fun _ x => x) (fun x => x) (fun _ _ => rfl)
    (fun _ => rfl) [2] 1 0 0 75 [("b", 1, 2)] "b" [true]
    (by norm_num) (by norm_num) (by norm_num)
    (by norm_num [detect_significant_band_epochs, compute_band_envelope,
      smooth_envelope, List.lookup, npPercentile, List.insertionSort,
      List.orderedInsert])

/-- Claim C2: for groups of size at least 2 (with weights matching values in
length, and each drawn index array a permutation of the pooled index range),
the permutation test returns the two-sided p-value as the fraction of null
values whose absolute value is at least |observed delta| and the one-sided
p-value as the fraction of null values at least the observed delta, over all
trials; each null value is the weighted-mean difference after permuting the
pooled (value, weight) pairs with pairing preserved, and each trial keeps
the original group sizes. -/
theorem claim_C2_permutation_pvalues (v1 w1 v2 w2 : List ℚ)
    (perms : List (List ℕ))
    (h1 : 2 ≤ v1.length) (h2 : 2 ≤ v2.length)
    (hw1 : w1.length = v1.length) (hw2 : w2.length = v2.length)
    (hperm : ∀ idx ∈ perms, idx.Perm (List.range (v1.length + v2.length))) :
    ∃ r, weighted_permutation_test v1 w1 v2 w2 perms = some r ∧
      r.obs_delta = wmean v1 w1 - wmean v2 w2 ∧
      r.perm_dist = perms.map (paired_null_value v1 w1 v2 w2) ∧
      (∀ idx ∈ perms, (idx.take v1.length).length = v1.length ∧
        (idx.drop v1.length).length = v2.length) ∧
      r.p_two_sided = ((r.perm_dist.filter (fun d =>
        decide (|r.obs_delta| ≤ |d|))).length : ℚ) / (perms.length : ℚ) ∧
      r.p_one_sided = ((r.perm_dist.filter (fun d =>
        decide (r.obs_delta ≤ d))).length : ℚ) / (perms.length : ℚ) := by
  have hpoollen : (v1 ++ v2).length = (w1 ++ w2).length := by
    simp [hw1, hw2]
  have hnull : ∀ idx : List ℕ,
      paired_null_value v1 w1 v2 w2 idx =
        wmean (fancy_index (v1 ++ v2) (idx.take v1.length))
            (fancy_index (w1 ++ w2) (idx.take v1.length)) -
          wmean (fancy_index (v1 ++ v2) (idx.drop v1.length))
            (fancy_index (w1 ++ w2) (idx.drop v1.length)) := by
    intro idx
    simp only [paired_null_value, wmean_pairs, fancy_index, List.map_map,
      Function.comp_def]
    rw [show (fun j => (((v1 ++ v2).zip (w1 ++ w2)).getD j (0, 0)).1) =
          (fun j => (v1 ++ v2).getD j 0) from
        funext fun j => by rw [zip_getD _ _ hpoollen j],
      show (fun j => (((v1 ++ v2).zip (w1 ++ w2)).getD j (0, 0)).2) =
          (fun j => (w1 ++ w2).getD j 0) from
        funext fun j => by rw [zip_getD _ _ hpoollen j]]
  simp only [weighted_permutation_test]
  rw [if_neg (by omega)]
  refine ⟨_, rfl, rfl, ?_, ?_, ?_, ?_⟩
  · exact List.map_congr_left (fun idx _ => (hnull idx).symm)
  · intro idx hidx
    have hlen := (hperm idx hidx).length_eq
    rw [List.length_range] at hlen
    constructor
    · rw [List.length_take]
      omega
    · rw [List.length_drop]
      omega
  · rw [List.length_map]
  · rw [List.length_map]

/-- Witness for C2 at concrete groups [1,2] vs [3,4], unit weights, and two
explicit permutations of the pooled indices. -/
theorem claim_C2_permutation_pvalues_witness :
    ∃ r, weighted_permutation_test [1, 2] [1, 1] [3, 4] [1, 1]
        [[3, 2, 1, 0], [0, 1, 2, 3]] = some r ∧
      r.obs_delta = wmean [1, 2] [1, 1] - wmean [3, 4] [1, 1] ∧
      r.perm_dist = [[3, 2, 1, 0], [0, 1, 2, 3]].map
        (paired_null_value [1, 2] [1, 1] [3, 4] [1, 1]) ∧
      (∀ idx ∈ [[3, 2, 1, 0], [0, 1, 2, 3]], (idx.take 2).length = 2 ∧
        (idx.drop 2).length = 2) ∧
      r.p_two_sided = ((r.perm_dist.filter (fun d =>
        decide (|r.obs_delta| ≤ |d|))).length : ℚ) / 2 ∧
      r.p_one_sided = ((r.perm_dist.filter (fun d =>
        decide (r.obs_delta ≤ d))).length : ℚ) / 2 :=
  claim_C2_permutation_pvalues [1, 2] [1, 1] [3, 4] [1, 1]
    [[3, 2, 1, 0], [0, 1, 2, 3]] (by norm_num) (by norm_num) rfl rfl
    (by decide)

/-- Claim C3: degenerate inputs produce NaN sentinels (modelled as `none`),
never exceptions: both power estimators return NaN for signals shorter than
2 samples, relative power returns NaN when the total-range PSD sum is zero
or non-finite, and the permutation test returns the all-NaN sentinel when
either group has fewer than 2 members. -/
theorem claim_C3_degenerate_sentinels :
    (∀ (lfp : List ℚ) (psd : List (ℚ × Option ℚ)) (f_low f_high : ℚ),
      lfp.length < 2 → compute_broadband_power lfp psd f_low f_high = none) ∧
    (∀ (lfp : List ℚ) (psd : List (ℚ × Option ℚ))
        (f_low f_high f_total_low f_total_high : ℚ),
      lfp.length < 2 →
      compute_relative_band_power lfp psd f_low f_high f_total_low
        f_total_high = none) ∧
    (∀ (lfp : List ℚ) (psd : List (ℚ × Option ℚ))
        (f_low f_high f_total_low f_total_high : ℚ),
      psd_band_sum psd f_total_low f_total_high = some 0 ∨
        psd_band_sum psd f_total_low f_total_high = none →
      compute_relative_band_power lfp psd f_low f_high f_total_low
        f_total_high = none) ∧
    (∀ (v1 w1 v2 w2 : List ℚ) (perms : List (List ℕ)),
      v1.length < 2 ∨ v2.length < 2 →
      weighted_permutation_test v1 w1 v2 w2 perms = none) := by
  refine ⟨fun lfp psd fl fh h => ?_, fun lfp psd fl fh ftl fth h => ?_,
    fun lfp psd fl fh ftl fth h => ?_, fun v1 w1 v2 w2 perms h => ?_⟩
  · rw [compute_broadband_power, if_pos h]
  · rw [compute_relative_band_power, if_pos h]
  · rw [compute_relative_band_power]
    by_cases hlen : lfp.length < 2
    · rw [if_pos hlen]
    · rw [if_neg hlen]
      rcases h with h | h <;> rw [h]
      simp
  · simp only [weighted_permutation_test]
    rw [if_pos h]

/-- Witness for C3: one-sample signals, a PSD whose total sum is zero, and a
one-member group all produce the NaN sentinel. -/
theorem claim_C3_degenerate_sentinels_witness :
    compute_broadband_power [1] [] 0 50 = none ∧
    compute_relative_band_power [1] [] 0 7 0 50 = none ∧
    compute_relative_band_power [1, 2, 3] [(1, some 0)] 0 7 0 50 = none ∧
    weighted_permutation_test [1] [1] [1, 2] [1, 1] [] = none :=
  ⟨claim_C3_degenerate_sentinels.1 [1] [] 0 50 (by norm_num),
   claim_C3_degenerate_sentinels.2.1 [1] [] 0 7 0 50 (by norm_num),
   claim_C3_degenerate_sentinels.2.2.1 [1, 2, 3] [(1, some 0)] 0 7 0 50
     (Or.inl (by norm_num [psd_band_sum, fsum])),
   claim_C3_degenerate_sentinels.2.2.2 [1] [1] [1, 2] [1, 1] []
     (Or.inl (by norm_num))⟩

/-- Claim C4: the permutation test is deterministic given its seed — the
drawn permutations are a pure function of the seed, so identical inputs and
seed give identical results — and with v1 = [1,2,3], w1 = [1,1,1],
v2 = [4,5,6], w2 = [1,1,1] the observed delta is exactly 2 - 5 = -3,
whatever the generator draws. -/
theorem claim_C4_seed_determinism :
    (∀ (rng : ℕ → ℕ → ℕ → List (List ℕ)) (seed n_perm : ℕ)
        (v1 w1 v2 w2 : List ℚ),
      weighted_permutation_test_seeded rng seed n_perm v1 w1 v2 w2 =
        weighted_permutation_test_seeded rng seed n_perm v1 w1 v2 w2) ∧
    (∀ (rng : ℕ → ℕ → ℕ → List (List ℕ)) (seed n_perm : ℕ),
      Option.map PermTestResult.obs_delta
        (weighted_permutation_test_seeded rng seed n_perm
          [1, 2, 3] [1, 1, 1] [4, 5, 6] [1, 1, 1]) = some (-3)) := by
  refine ⟨fun _ _ _ _ _ _ _ => rfl, fun rng seed n_perm => ?_⟩
  rw [weighted_permutation_test_seeded]
  simp only [weighted_permutation_test]
  rw [if_neg (by norm_num)]
  simp only [Option.map_some']
  norm_num [wmean, np_dot]

theorem trueRuns_cons_false (t : List Bool) :
    trueRuns (false :: t) = (trueRuns t).map (fun p => (p.1 + 1, p.2 + 1)) := by
  simp [trueRuns]

theorem trueRuns_cons_true_nil (t : List Bool) (h : trueRuns t = []) :
    trueRuns (true :: t) = [(0, 1)] := by
  simp [trueRuns, h]

theorem trueRuns_cons_true_zero (t : List Bool) (e : ℕ) (rest : List (ℕ × ℕ))
    (h : trueRuns t = (0, e) :: rest) :
    trueRuns (true :: t) =
      (0, e + 1) :: rest.map (fun p => (p.1 + 1, p.2 + 1)) := by
  simp [trueRuns, h]

theorem trueRuns_cons_true_pos (t : List Bool) (s e : ℕ)
    (rest : List (ℕ × ℕ)) (h : trueRuns t = (s + 1, e) :: rest) :
    trueRuns (true :: t) =
      (0, 1) :: (s + 2, e + 1) :: rest.map (fun p => (p.1 + 1, p.2 + 1)) := by
  simp [trueRuns, h]

theorem isMaximalRun_shift (bb : Bool) (t : List Bool) (s e : ℕ)
    (h : IsMaximalRun t s e) (hleft : 1 ≤ s ∨ bb = false) :
    IsMaximalRun (bb :: t) (s + 1) (e + 1) := by
  obtain ⟨h1, h2, h3, h4, h5⟩ := h
  refine ⟨by omega, by simp; omega, ?_, ?_, ?_⟩
  · intro i hi1 hi2
    cases i with
    | zero => omega
    | succ j =>
      rw [List.getD_cons_succ]
      exact h3 j (by omega) (by omega)
  · right
    simp only [Nat.add_sub_cancel]
    rcases hleft with hs | hb
    · obtain ⟨s', rfl⟩ := Nat.exists_eq_add_of_le hs
      rw [show 1 + s' = s' + 1 by omega, List.getD_cons_succ]
      rcases h4 with h4 | h4
      · omega
      · simpa using h4
    · subst hb
      rcases h4 with h4 | h4
      · subst h4
        rw [List.getD_cons_zero]
      · cases s with
        | zero => rw [List.getD_cons_zero]
        | succ s' => rw [List.getD_cons_succ]; simpa using h4
  · rcases h5 with h5 | h5
    · left
      simp [h5]
    · right
      rw [List.getD_cons_succ]
      exact h5

theorem isMaximalRun_cons_zero (t : List Bool) (e : ℕ)
    (h : IsMaximalRun t 0 e) : IsMaximalRun (true :: t) 0 (e + 1) := by
  obtain ⟨h1, h2, h3, _h4, h5⟩ := h
  refine ⟨by omega, by simp; omega, ?_, Or.inl rfl, ?_⟩
  · intro i _ hi2
    cases i with
    | zero => rw [List.getD_cons_zero]
    | succ j =>
      rw [List.getD_cons_succ]
      exact h3 j (by omega) (by omega)
  · rcases h5 with h5 | h5
    · left
      simp [h5]
    · right
      rw [List.getD_cons_succ]
      exact h5

theorem isMaximalRun_singleton (t : List Bool)
    (h : t.getD 0 false = false) : IsMaximalRun (true :: t) 0 1 := by
  refine ⟨by omega, by simp, ?_, Or.inl rfl, ?_⟩
  · intro i hi1 hi2
    have : i = 0 := by omega
    subst this
    rw [List.getD_cons_zero]
  · right
    rw [List.getD_cons_succ]
    exact h

/-- Heads of nonempty trueRuns start at 0 exactly when the mask starts True. -/
theorem trueRuns_head_of_true (t : List Bool) (h : t.getD 0 false = true) :
    ∃ e rest, trueRuns t = (0, e) :: rest := by
  cases t with
  | nil => simp at h
  | cons b t2 =>
    rw [List.getD_cons_zero] at h
    subst h
    rcases htr : trueRuns t2 with _ | ⟨⟨s, e⟩, rest⟩
    · exact ⟨1, [], trueRuns_cons_true_nil t2 htr⟩
    · cases s with
      | zero => exact ⟨e + 1, _, trueRuns_cons_true_zero t2 e rest htr⟩
      | succ s' => exact ⟨1, _, trueRuns_cons_true_pos t2 s' e rest htr⟩

/-- Soundness plus ordering of the reference run-length encoding: every
produced pair is a maximal run, and runs are separated in order. -/
theorem trueRuns_sound_pairwise (m : List Bool) :
    (∀ p ∈ trueRuns m, IsMaximalRun m p.1 p.2) ∧
    List.Pairwise (fun p q : ℕ × ℕ => p.2 < q.1) (trueRuns m) := by
  induction m with
  | nil => exact ⟨by simp [trueRuns], by simp [trueRuns]⟩
  | cons b t ih =>
    obtain ⟨ihs, ihp⟩ := ih
    cases b
    · rw [trueRuns_cons_false]
      constructor
      · rintro p hp
        obtain ⟨q, hq, rfl⟩ := List.mem_map.mp hp
        exact isMaximalRun_shift false t q.1 q.2 (ihs q hq) (Or.inr rfl)
      · refine List.Pairwise.map _ ?_ ihp
        intro a b hab
        simpa using by omega
    · rcases htr : trueRuns t with _ | ⟨⟨s0, e0⟩, rest⟩
      · rw [trueRuns_cons_true_nil t htr]
        have hhead : t.getD 0 false = false := by
          match ht : t.getD 0 false with
          | false => rfl
          | true =>
            obtain ⟨e, r2, hr⟩ := trueRuns_head_of_true t ht
            rw [htr] at hr
            exact absurd hr (by simp)
        exact ⟨by simpa using isMaximalRun_singleton t hhead, by simp⟩
      · rw [htr] at ihs ihp
        have hhead0 : IsMaximalRun t s0 e0 := ihs (s0, e0) (by simp)
        have he0 : 1 ≤ e0 := by
          have := hhead0.1
          omega
        cases s0 with
        | zero =>
          rw [trueRuns_cons_true_zero t e0 rest htr]
          constructor
          · rintro p hp
            rcases List.mem_cons.mp hp with rfl | hp2
            · exact isMaximalRun_cons_zero t e0 hhead0
            · obtain ⟨q, hq, rfl⟩ := List.mem_map.mp hp2
              refine isMaximalRun_shift true t q.1 q.2
                (ihs q (List.mem_cons_of_mem _ hq)) (Or.inl ?_)
              have := (List.pairwise_cons.mp ihp).1 q hq
              omega
          · rw [List.pairwise_cons]
            constructor
            · rintro p hp
              obtain ⟨q, hq, rfl⟩ := List.mem_map.mp hp
              have := (List.pairwise_cons.mp ihp).1 q hq
              dsimp only
              omega
            · refine List.Pairwise.map _ ?_ (List.pairwise_cons.mp ihp).2
              intro a b hab
              simpa using by omega
        | succ s0' =>
          rw [trueRuns_cons_true_pos t s0' e0 rest htr]
          have hhead : t.getD 0 false = false := by
            match ht : t.getD 0 false with
            | false => rfl
            | true =>
              obtain ⟨e, r2, hr⟩ := trueRuns_head_of_true t ht
              rw [htr] at hr
              simp at hr
          constructor
          · rintro p hp
            rcases List.mem_cons.mp hp with rfl | hp2
            · exact isMaximalRun_singleton t hhead
            · rcases List.mem_cons.mp hp2 with rfl | hp3
              · exact isMaximalRun_shift true t (s0' + 1) e0 hhead0
                  (Or.inl (by omega))
              · obtain ⟨q, hq, rfl⟩ := List.mem_map.mp hp3
                refine isMaximalRun_shift true t q.1 q.2
                  (ihs q (List.mem_cons_of_mem _ hq)) (Or.inl ?_)
                have := (List.pairwise_cons.mp ihp).1 q hq
                omega
          · rw [List.pairwise_cons]
            constructor
            · rintro p hp
              rcases List.mem_cons.mp hp with rfl | hp2
              · dsimp only
                omega
              · obtain ⟨q, hq, rfl⟩ := List.mem_map.mp hp2
                have := (List.pairwise_cons.mp ihp).1 q hq
                dsimp only
                omega
            · rw [List.pairwise_cons]
              constructor
              · rintro p hp
                obtain ⟨q, hq, rfl⟩ := List.mem_map.mp hp
                have := (List.pairwise_cons.mp ihp).1 q hq
                dsimp only
                omega
              · refine List.Pairwise.map _ ?_ (List.pairwise_cons.mp ihp).2
                intro a b hab
                simpa using by omega

/-- Covering: every True index of the mask lies inside some produced run. -/
theorem trueRuns_cover (m : List Bool) (i : ℕ) (h : m.getD i false = true) :
    ∃ p ∈ trueRuns m, p.1 ≤ i ∧ i < p.2 := by
  induction m generalizing i with
  | nil => simp at h
  | cons b t ih =>
    cases i with
    | zero =>
      rw [List.getD_cons_zero] at h
      subst h
      rcases htr : trueRuns t with _ | ⟨⟨s0, e0⟩, rest⟩
      · rw [trueRuns_cons_true_nil t htr]
        exact ⟨(0, 1), by simp, by omega, by omega⟩
      · cases s0 with
        | zero =>
          rw [trueRuns_cons_true_zero t e0 rest htr]
          exact ⟨(0, e0 + 1), by simp, by omega, by omega⟩
        | succ s0' =>
          rw [trueRuns_cons_true_pos t s0' e0 rest htr]
          exact ⟨(0, 1), by simp, by omega, by omega⟩
    | succ j =>
      rw [List.getD_cons_succ] at h
      obtain ⟨p, hp, hp1, hp2⟩ := ih j h
      cases b
      · rw [trueRuns_cons_false]
        exact ⟨(p.1 + 1, p.2 + 1), List.mem_map.mpr ⟨p, hp, rfl⟩,
          by omega, by omega⟩
      · rcases htr : trueRuns t with _ | ⟨⟨s0, e0⟩, rest⟩
        · rw [htr] at hp
          simp at hp
        · rw [htr] at hp
          cases s0 with
          | zero =>
            rw [trueRuns_cons_true_zero t e0 rest htr]
            rcases List.mem_cons.mp hp with heq | hp3
            · rw [heq] at hp1 hp2
              dsimp only at hp1 hp2
              exact ⟨(0, e0 + 1), by simp, by omega, by omega⟩
            · exact ⟨(p.1 + 1, p.2 + 1),
                List.mem_cons_of_mem _ (List.mem_map.mpr ⟨p, hp3, rfl⟩),
                by omega, by omega⟩
          | succ s0' =>
            rw [trueRuns_cons_true_pos t s0' e0 rest htr]
            rcases List.mem_cons.mp hp with heq | hp3
            · rw [heq] at hp1 hp2
              dsimp only at hp1 hp2
              exact ⟨(s0' + 2, e0 + 1), by simp, by omega, by omega⟩
            · exact ⟨(p.1 + 1, p.2 + 1),
                List.mem_cons_of_mem _ (List.mem_cons_of_mem _
                  (List.mem_map.mpr ⟨p, hp3, rfl⟩)),
                by omega, by omega⟩

theorem getD_true_lt_length (m : List Bool) (i : ℕ)
    (h : m.getD i false = true) : i < m.length := by
  by_contra hc
  rw [List.getD_eq_default _ _ (by omega)] at h
  exact Bool.false_ne_true h

/-- The run starts are exactly the True samples with no True sample just
before them. -/
theorem mem_trueRuns_fst (m : List Bool) (s : ℕ) :
    s ∈ (trueRuns m).map Prod.fst ↔
      (m.getD s false = true ∧ (s = 0 ∨ m.getD (s - 1) false = false)) := by
  constructor
  · intro hs
    obtain ⟨p, hp, rfl⟩ := List.mem_map.mp hs
    obtain ⟨h1, h2, h3, h4, h5⟩ := (trueRuns_sound_pairwise m).1 p hp
    exact ⟨h3 p.1 (le_refl _) h1, h4⟩
  · rintro ⟨h1, h2⟩
    obtain ⟨p, hp, hp1, hp2⟩ := trueRuns_cover m s h1
    have hsound := (trueRuns_sound_pairwise m).1 p hp
    have heq : p.1 = s := by
      by_contra hne
      have hmem := hsound.2.2.1 (s - 1) (by omega) (by omega)
      rcases h2 with h2 | h2
      · omega
      · rw [h2] at hmem
        exact Bool.false_ne_true hmem
    exact List.mem_map.mpr ⟨p, hp, heq⟩

/-- The run ends are exactly the indices just past a True sample that is not
followed by another True sample. -/
theorem mem_trueRuns_snd (m : List Bool) (e : ℕ) :
    e ∈ (trueRuns m).map Prod.snd ↔
      (1 ≤ e ∧ m.getD (e - 1) false = true ∧
        (e = m.length ∨ m.getD e false = false)) := by
  constructor
  · intro he
    obtain ⟨p, hp, rfl⟩ := List.mem_map.mp he
    obtain ⟨h1, h2, h3, h4, h5⟩ := (trueRuns_sound_pairwise m).1 p hp
    exact ⟨by omega, h3 (p.2 - 1) (by omega) (by omega), h5⟩
  · rintro ⟨h1, h2, h3⟩
    obtain ⟨p, hp, hp1, hp2⟩ := trueRuns_cover m (e - 1) h2
    have hsound := (trueRuns_sound_pairwise m).1 p hp
    have heq : p.2 = e := by
      by_contra hne
      have hlt : e < p.2 := by omega
      have hmem := hsound.2.2.1 e (by omega) (by omega)
      rcases h3 with h3 | h3
      · have := hsound.2.1
        omega
      · rw [h3] at hmem
        exact Bool.false_ne_true hmem
    exact List.mem_map.mpr ⟨p, hp, heq⟩

theorem trueRuns_fst_sorted (m : List Bool) :
    List.Pairwise (· < ·) ((trueRuns m).map Prod.fst) := by
  rw [List.pairwise_map]
  refine List.Pairwise.imp_of_mem ?_ (trueRuns_sound_pairwise m).2
  intro a b ha _hb hab
  have := ((trueRuns_sound_pairwise m).1 a ha).1
  omega

theorem trueRuns_snd_sorted (m : List Bool) :
    List.Pairwise (· < ·) ((trueRuns m).map Prod.snd) := by
  rw [List.pairwise_map]
  refine List.Pairwise.imp_of_mem ?_ (trueRuns_sound_pairwise m).2
  intro a b _ha hb hab
  have := ((trueRuns_sound_pairwise m).1 b hb).1
  omega

theorem eq_of_sorted_lt_mem_iff (l1 l2 : List ℕ)
    (h1 : List.Pairwise (· < ·) l1) (h2 : List.Pairwise (· < ·) l2)
    (hm : ∀ x, x ∈ l1 ↔ x ∈ l2) : l1 = l2 := by
  have nd1 : l1.Nodup := List.Pairwise.imp (fun hab => ne_of_lt hab) h1
  have nd2 : l2.Nodup := List.Pairwise.imp (fun hab => ne_of_lt hab) h2
  have hperm := (List.perm_ext_iff_of_nodup nd1 nd2).mpr hm
  exact List.eq_of_perm_of_sorted hperm
    (List.Pairwise.imp (fun hab => le_of_lt hab) h1)
    (List.Pairwise.imp (fun hab => le_of_lt hab) h2)

theorem np_diff_changes_getD (sig : List Bool) (i : ℕ)
    (h : i < sig.length - 1) :
    (np_diff_changes sig).getD i 0 =
      boolToInt (sig.getD (i + 1) false) - boolToInt (sig.getD i false) := by
  rw [np_diff_changes, List.getD_eq_getElem?_getD, List.getElem?_map,
    List.getElem?_range h]
  rfl

theorem boolToInt_sub_eq_one (b1 b2 : Bool) :
    boolToInt b2 - boolToInt b1 = 1 ↔ (b2 = true ∧ b1 = false) := by
  cases b1 <;> cases b2 <;> simp [boolToInt]

theorem boolToInt_sub_eq_negone (b1 b2 : Bool) :
    boolToInt b2 - boolToInt b1 = -1 ↔ (b2 = false ∧ b1 = true) := by
  cases b1 <;> cases b2 <;> simp [boolToInt]

theorem mem_run_starts (sig : List Bool) (s : ℕ) :
    s ∈ run_starts sig ↔
      (sig.getD s false = true ∧ (s = 0 ∨ sig.getD (s - 1) false = false)) := by
  rw [run_starts, List.mem_append]
  constructor
  · rintro (h0 | hmap)
    · by_cases hb : sig.getD 0 false = true
      · rw [if_pos hb] at h0
        simp only [List.mem_singleton] at h0
        subst h0
        exact ⟨hb, Or.inl rfl⟩
      · rw [if_neg hb] at h0
        simp at h0
    · obtain ⟨i, hi, rfl⟩ := List.mem_map.mp hmap
      rw [List.mem_filter, List.mem_range] at hi
      obtain ⟨hir, hcond⟩ := hi
      rw [decide_eq_true_eq, np_diff_changes_getD sig i hir,
        boolToInt_sub_eq_one] at hcond
      refine ⟨hcond.1, Or.inr ?_⟩
      simpa using hcond.2
  · rintro ⟨h1, h2⟩
    have hlt := getD_true_lt_length sig s h1
    rcases Nat.eq_zero_or_pos s with rfl | hs
    · left
      rw [if_pos h1]
      simp
    · right
      have h2' : sig.getD (s - 1) false = false := by
        rcases h2 with h2 | h2
        · omega
        · exact h2
      refine List.mem_map.mpr ⟨s - 1, ?_, by omega⟩
      rw [List.mem_filter, List.mem_range]
      refine ⟨by omega, ?_⟩
      rw [decide_eq_true_eq, np_diff_changes_getD sig (s - 1) (by omega),
        boolToInt_sub_eq_one]
      constructor
      · rw [show s - 1 + 1 = s by omega]
        exact h1
      · exact h2'

theorem mem_run_ends (sig : List Bool) (e : ℕ) :
    e ∈ run_ends sig ↔
      (1 ≤ e ∧ sig.getD (e - 1) false = true ∧
        (e = sig.length ∨ sig.getD e false = false)) := by
  rw [run_ends, List.mem_append]
  constructor
  · rintro (hmap | h0)
    · obtain ⟨i, hi, rfl⟩ := List.mem_map.mp hmap
      rw [List.mem_filter, List.mem_range] at hi
      obtain ⟨hir, hcond⟩ := hi
      rw [decide_eq_true_eq, np_diff_changes_getD sig i hir,
        boolToInt_sub_eq_negone] at hcond
      refine ⟨by omega, ?_, Or.inr hcond.1⟩
      simpa using hcond.2
    · by_cases hb : sig.getD (sig.length - 1) false = true
      · rw [if_pos hb] at h0
        simp only [List.mem_singleton] at h0
        subst h0
        have := getD_true_lt_length sig (sig.length - 1) hb
        exact ⟨by omega, hb, Or.inl rfl⟩
      · rw [if_neg hb] at h0
        simp at h0
  · rintro ⟨h1, h2, h3⟩
    have hlt := getD_true_lt_length sig (e - 1) h2
    by_cases he : e = sig.length
    · right
      subst he
      rw [if_pos h2]
      simp
    · left
      have h3' : sig.getD e false = false := by
        rcases h3 with h3 | h3
        · exact absurd h3 he
        · exact h3
      refine List.mem_map.mpr ⟨e - 1, ?_, by omega⟩
      rw [List.mem_filter, List.mem_range]
      have helt : e < sig.length := by
        rcases Nat.lt_or_ge e sig.length with h | h
        · exact h
        · rw [List.getD_eq_default _ _ h] at h3'
          omega
      refine ⟨by omega, ?_⟩
      rw [decide_eq_true_eq, np_diff_changes_getD sig (e - 1) (by omega),
        boolToInt_sub_eq_negone]
      constructor
      · rw [show e - 1 + 1 = e by omega]
        exact h3'
      · exact h2

theorem run_starts_sorted (sig : List Bool) :
    List.Pairwise (· < ·) (run_starts sig) := by
  rw [run_starts, List.pairwise_append]
  refine ⟨?_, ?_, ?_⟩
  · split_ifs <;> simp
  · rw [List.pairwise_map]
    refine List.Pairwise.imp ?_
      (List.Pairwise.filter _ (List.pairwise_lt_range _))
    intro a b hab
    omega
  · intro a ha b hb
    obtain ⟨i, _, rfl⟩ := List.mem_map.mp hb
    split_ifs at ha with hh
    · simp only [List.mem_singleton] at ha
      omega
    · simp at ha

theorem run_ends_sorted (sig : List Bool) :
    List.Pairwise (· < ·) (run_ends sig) := by
  rw [run_ends, List.pairwise_append]
  refine ⟨?_, ?_, ?_⟩
  · rw [List.pairwise_map]
    refine List.Pairwise.imp ?_
      (List.Pairwise.filter _ (List.pairwise_lt_range _))
    intro a b hab
    omega
  · split_ifs <;> simp
  · intro a ha b hb
    obtain ⟨i, hi, rfl⟩ := List.mem_map.mp ha
    rw [List.mem_filter, List.mem_range] at hi
    split_ifs at hb with hh
    · simp only [List.mem_singleton] at hb
      omega
    · simp at hb

theorem run_starts_eq (sig : List Bool) :
    run_starts sig = (trueRuns sig).map Prod.fst :=
  eq_of_sorted_lt_mem_iff _ _ (run_starts_sorted sig)
    (trueRuns_fst_sorted sig)
    (fun s => (mem_run_starts sig s).trans (mem_trueRuns_fst sig s).symm)

theorem run_ends_eq (sig : List Bool) :
    run_ends sig = (trueRuns sig).map Prod.snd :=
  eq_of_sorted_lt_mem_iff _ _ (run_ends_sorted sig)
    (trueRuns_snd_sorted sig)
    (fun e => (mem_run_ends sig e).trans (mem_trueRuns_snd sig e).symm)

theorem merged_intervals_eq (sig : List Bool) (times : List ℚ) :
    merged_intervals sig times = (trueRuns sig).map (fun p =>
      (times.getD p.1 0,
        times.getD (p.2 - 1) 0 + (times.getD 1 0 - times.getD 0 0))) := by
  rw [merged_intervals, run_starts_eq, run_ends_eq, List.zip_map',
    List.map_map]
  rfl

theorem isMaximalRun_end_unique (m : List Bool) (s e e' : ℕ)
    (h : IsMaximalRun m s e) (h' : IsMaximalRun m s e') : e = e' := by
  by_contra hne
  rcases Nat.lt_or_ge e e' with hlt | hge
  · have hmem := h'.2.2.1 e (by have := h.1; omega) hlt
    rcases h.2.2.2.2 with h5 | h5
    · have := h'.2.1
      omega
    · rw [h5] at hmem
      exact Bool.false_ne_true hmem
  · have hlt : e' < e := by omega
    have hmem := h.2.2.1 e' (by have := h'.1; omega) hlt
    rcases h'.2.2.2.2 with h5 | h5
    · have := h.2.1
      omega
    · rw [h5] at hmem
      exact Bool.false_ne_true hmem

/-- The reference run-length encoding produces exactly the maximal runs. -/
theorem mem_trueRuns_iff (m : List Bool) (s e : ℕ) :
    (s, e) ∈ trueRuns m ↔ IsMaximalRun m s e := by
  constructor
  · intro h
    exact (trueRuns_sound_pairwise m).1 (s, e) h
  · intro h
    have hmem : s ∈ (trueRuns m).map Prod.fst := by
      rw [mem_trueRuns_fst]
      exact ⟨h.2.2.1 s (le_refl s) h.1, h.2.2.2.1⟩
    obtain ⟨p, hp, hps⟩ := List.mem_map.mp hmem
    obtain ⟨p1, p2⟩ := p
    dsimp only at hps
    subst hps
    have hsound := (trueRuns_sound_pairwise m).1 (p1, p2) hp
    have he := isMaximalRun_end_unique m p1 p2 e hsound h
    subst he
    exact hp

theorem trueRuns_all_false (m : List Bool) (h : ∀ b ∈ m, b = false) :
    trueRuns m = [] := by
  rw [List.eq_nil_iff_forall_not_mem]
  intro p hp
  have hsound := (trueRuns_sound_pairwise m).1 p hp
  have htrue := hsound.2.2.1 p.1 (le_refl _) hsound.1
  have hlt : p.1 < m.length := by
    have h1 := hsound.1
    have h2 := hsound.2.1
    omega
  rw [List.getD_eq_getElem _ _ hlt] at htrue
  have hfalse := h _ (List.getElem_mem hlt)
  rw [hfalse] at htrue
  exact Bool.false_ne_true htrue

theorem trueRuns_replicate (n : ℕ) (h : 1 ≤ n) :
    trueRuns (List.replicate n true) = [(0, n)] := by
  induction n with
  | zero => omega
  | succ k ih =>
    rcases Nat.eq_zero_or_pos k with rfl | hk
    · exact trueRuns_cons_true_nil [] rfl
    · rw [List.replicate_succ, trueRuns_cons_true_zero _ k [] (ih hk)]
      simp

theorem getD_range_map (n : ℕ) (f : ℕ → ℚ) (i : ℕ) (d : ℚ) (h : i < n) :
    ((List.range n).map f).getD i d = f i := by
  rw [List.getD_eq_getElem?_getD, List.getElem?_map, List.getElem?_range h]
  rfl

theorem claim_C5_interval_merger (sig : List Bool) (t0 dt : ℚ)
    (times : List ℚ)
    (htimes : times = (List.range sig.length).map (fun i : ℕ => t0 + (i : ℚ) * dt))
    (hdt : 0 < dt) (hn : 2 ≤ sig.length) :
    (merged_intervals sig times = (trueRuns sig).map (fun p =>
        (times.getD p.1 0, times.getD (p.2 - 1) 0 + dt)) ∧
      (∀ s e : ℕ, (s, e) ∈ trueRuns sig ↔ IsMaximalRun sig s e)) ∧
    ((∀ b ∈ sig, b = false) → merged_intervals sig times = []) ∧
    (sig = List.replicate sig.length true →
      merged_intervals sig times = [(t0, t0 + (sig.length : ℚ) * dt)]) ∧
    (∀ i, i < sig.length → (sig.getD i false = true ↔
      ∃ iv ∈ merged_intervals sig times,
        iv.1 ≤ t0 + (i : ℚ) * dt ∧ t0 + (i : ℚ) * dt < iv.2)) := by
  have hdt_eq : times.getD 1 0 - times.getD 0 0 = dt := by
    rw [htimes, getD_range_map _ _ _ _ (by omega),
      getD_range_map _ _ _ _ (by omega)]
    push_cast
    ring
  have hT : ∀ j, j < sig.length → times.getD j 0 = t0 + (j : ℚ) * dt := by
    intro j hj
    rw [htimes, getD_range_map _ _ _ _ hj]
  have hmain : merged_intervals sig times = (trueRuns sig).map (fun p =>
      (times.getD p.1 0, times.getD (p.2 - 1) 0 + dt)) := by
    rw [merged_intervals_eq, hdt_eq]
  refine ⟨⟨hmain, fun s e => mem_trueRuns_iff sig s e⟩, ?_, ?_, ?_⟩
  · intro hall
    rw [hmain, trueRuns_all_false sig hall]
    rfl
  · intro hrep
    rw [hmain]
    have htr : trueRuns sig = [(0, sig.length)] := by
      conv_lhs => rw [hrep]
      exact trueRuns_replicate _ (by omega)
    rw [htr]
    simp only [List.map_cons, List.map_nil]
    rw [hT 0 (by omega), hT (sig.length - 1) (by omega)]
    have h21 : 1 ≤ sig.length := by omega
    rw [Nat.cast_sub h21, Nat.cast_one]
    norm_num
    ring
  · intro i hi
    constructor
    · intro htrue
      obtain ⟨p, hp, hp1, hp2⟩ := trueRuns_cover sig i htrue
      have hsound := (trueRuns_sound_pairwise sig).1 p hp
      have hp2n : p.2 ≤ sig.length := hsound.2.1
      refine ⟨(times.getD p.1 0, times.getD (p.2 - 1) 0 + dt),
        by rw [hmain]; exact List.mem_map.mpr ⟨p, hp, rfl⟩, ?_, ?_⟩
      · dsimp only
        rw [hT p.1 (by omega)]
        have hc : (p.1 : ℚ) ≤ (i : ℚ) := by exact_mod_cast hp1
        nlinarith
      · dsimp only
        rw [hT (p.2 - 1) (by omega)]
        have h21 : 1 ≤ p.2 := by omega
        rw [Nat.cast_sub h21, Nat.cast_one]
        have hc : (i : ℚ) < (p.2 : ℚ) := by exact_mod_cast hp2
        nlinarith
    · rintro ⟨iv, hiv, hle, hlt⟩
      rw [hmain] at hiv
      obtain ⟨p, hp, rfl⟩ := List.mem_map.mp hiv
      have hsound := (trueRuns_sound_pairwise sig).1 p hp
      have hp1n : p.1 < sig.length := by
        have h1 := hsound.1
        have h2 := hsound.2.1
        omega
      dsimp only at hle hlt
      rw [hT p.1 hp1n] at hle
      rw [hT (p.2 - 1) (by have := hsound.2.1; omega)] at hlt
      have h21 : 1 ≤ p.2 := by have := hsound.1; omega
      rw [Nat.cast_sub h21, Nat.cast_one] at hlt
      have hs : p.1 ≤ i := by
        have hmul : (p.1 : ℚ) * dt ≤ (i : ℚ) * dt := by linarith
        have := le_of_mul_le_mul_right hmul hdt
        exact_mod_cast this
      have he : i < p.2 := by
        have hmul : (i : ℚ) * dt < (p.2 : ℚ) * dt := by nlinarith
        have := lt_of_mul_lt_mul_right hmul (le_of_lt hdt)
        exact_mod_cast this
      exact hsound.2.2.1 i hs he

theorem claim_C5_interval_merger_witness :
    merged_intervals [true, true] [0, 1] = [(0, 2)] :=
  ((claim_C5_interval_merger [true, true] 0 1 [0, 1]
      (by norm_num [List.range_succ]) (by norm_num)
      (by norm_num)).2.2.1 rfl).trans (by norm_num)

/-- Claim C6: a signal shorter than the notch filter's required padding
length `3 * max(len(a), len(b))` is returned unchanged by
`apply_notch_filter`, and a longer signal is filtered. -/
theorem claim_C6_notch_skip (filtfiltF : List ℚ → List ℚ → List ℚ → List ℚ)
    (b a lfp : List ℚ) :
    (lfp.length < 3 * max a.length b.length →
      apply_notch_filter filtfiltF b a lfp = lfp) ∧
    (3 * max a.length b.length < lfp.length →
      apply_notch_filter filtfiltF b a lfp = filtfiltF b a lfp) := by
  unfold apply_notch_filter
  constructor
  · intro h
    rw [if_pos (Nat.le_of_lt h)]
  · intro h
    rw [if_neg (by omega)]

/-- Witness for C6 at concrete inputs: biquad-length coefficient arrays give
padding length 9; a 2-sample signal is passed through unchanged and an
11-sample signal reaches the (here constant) filtfilt routine. -/
theorem claim_C6_notch_skip_witness :
    apply_notch_filter (fun _ _ _ => [7]) [0, 0, 0] [0, 0, 0] [1, 2] = [1, 2] ∧
    apply_notch_filter (fun _ _ _ => [7]) [0, 0, 0] [0, 0, 0]
      (List.replicate 11 1) = [7] :=
  ⟨(claim_C6_notch_skip (fun _ _ _ => [7]) [0, 0, 0] [0, 0, 0] [1, 2]).1
      (by decide),
   (claim_C6_notch_skip (fun _ _ _ => [7]) [0, 0, 0] [0, 0, 0]
      (List.replicate 11 1)).2 (by decide)⟩

/-- Claim C7 counterexample: at sampling rate fs = 100 Hz and requested band
(60, 80) Hz the low normalized cutoff is 60 / 50 = 1.2, which is not strictly
inside (0, 1), so the claim's unconditional guarantee fails. -/
theorem claim_C7_cutoffs_counterexample :
    ¬((normalized_cutoffs 100 60 80).1 < 1) := by
  unfold normalized_cutoffs
  simp only
  rw [max_eq_left (by norm_num)]
  norm_num

/-- Claim C7 (amended): the low cutoff is clamped to at least 0.5 Hz and the
high cutoff to at most fs/2 - 0.5 Hz for every input; the normalized cutoffs
are strictly inside (0, 1) provided fs exceeds 1 Hz, the requested low edge
lies below Nyquist and the requested high edge is positive (without these
provisos the guarantee fails, as the counterexample shows). -/
theorem claim_C7_cutoffs_amended (fs f_low f_high : ℚ) :
    ((0.5 : ℚ) ≤ max f_low 0.5 ∧ min f_high (fs / 2 - 0.5) ≤ fs / 2 - 0.5) ∧
    (1 < fs → f_low < fs / 2 → 0 < f_high →
      0 < (normalized_cutoffs fs f_low f_high).1 ∧
      (normalized_cutoffs fs f_low f_high).1 < 1 ∧
      0 < (normalized_cutoffs fs f_low f_high).2 ∧
      (normalized_cutoffs fs f_low f_high).2 < 1) := by
  refine ⟨⟨le_max_right _ _, min_le_right _ _⟩, fun h1 h2 h3 => ?_⟩
  unfold normalized_cutoffs
  simp only
  have hnyq : 0 < fs / 2 := by linarith
  refine ⟨div_pos (lt_max_of_lt_right (by norm_num)) hnyq,
    (div_lt_one hnyq).mpr (max_lt h2 (by linarith)),
    div_pos (lt_min h3 (by linarith)) hnyq,
    (div_lt_one hnyq).mpr (lt_of_le_of_lt (min_le_right _ _) (by linarith))⟩

/-- Witness for the amended C7 at fs = 1250 Hz and the theta band (7, 12). -/
theorem claim_C7_cutoffs_amended_witness :
    0 < (normalized_cutoffs 1250 7 12).1 ∧
    (normalized_cutoffs 1250 7 12).1 < 1 ∧
    0 < (normalized_cutoffs 1250 7 12).2 ∧
    (normalized_cutoffs 1250 7 12).2 < 1 :=
  (claim_C7_cutoffs_amended 1250 7 12).2 (by norm_num) (by norm_num)
    (by norm_num)

/-- Length of a mode-same convolution when the kernel is nonempty and at
most as long as the signal: the output has the signal's length. -/
theorem npConvolveSame_length (a v : List ℚ) (h1 : 1 ≤ v.length)
    (h2 : v.length ≤ a.length) :
    (npConvolveSame a v).length = a.length := by
  simp only [npConvolveSame, npConvolveFull, List.length_take,
    List.length_drop, List.length_map, List.length_range]
  omega

/-- Claim C8 counterexample, refuting both assertions of the claim that the
code violates: (i) with envelope [0, 2], fs = 1 and smooth_sec = 3/2, the
code truncates 1.5 to a kernel of length 1 (so the envelope passes through
unchanged, as [0, 2]), while the claimed kernel length round(1.5) = 2 would
average adjacent samples and yield [0, 1]; (ii) with the one-sample envelope
[1], fs = 1 and smooth_sec = 2, the kernel (length 2) is longer than the
input and NumPy's mode-same convolution returns the kernel's length 2, so
the claimed output-length-equals-input-length assertion fails as well. -/
theorem claim_C8_smoothing_counterexample :
    (smooth_envelope [0, 2] 1 (3 / 2) ≠
      npConvolveSame [0, 2]
        (List.replicate ((max 1 (round ((3 : ℚ) / 2 * 1))).toNat)
          ((1 : ℚ) / (((max 1 (round ((3 : ℚ) / 2 * 1))).toNat : ℕ) : ℚ)))) ∧
    (smooth_envelope [1] 1 2).length ≠ ([1] : List ℚ).length := by
  constructor
  · have h1 : smooth_envelope [0, 2] 1 (3 / 2) = [0, 2] := by
      rw [smooth_envelope, if_pos (by norm_num)]
      norm_num [pyTrunc, Int.floor_eq_iff]
      norm_num [npConvolveSame, npConvolveFull, List.range_succ]
    have h2 : (max 1 (round ((3 : ℚ) / 2 * 1))).toNat = 2 := by
      norm_num [round_eq, Int.floor_eq_iff]
      decide
    rw [h1, h2]
    have h3 : npConvolveSame [0, 2]
        (List.replicate 2 ((1 : ℚ) / ((2 : ℕ) : ℚ))) = [0, 1] := by
      norm_num [npConvolveSame, npConvolveFull, List.range_succ,
        List.replicate]
    rw [h3]
    norm_num
  · have h4 : smooth_envelope [1] 1 2 = [1 / 2, 1 / 2] := by
      rw [smooth_envelope, if_pos (by norm_num)]
      norm_num [pyTrunc, Int.floor_eq_iff]
      norm_num [npConvolveSame, npConvolveFull, List.range_succ,
        List.replicate, Int.toNat]
    rw [h4]
    norm_num

/-- Claim C8 (amended): for smooth_sec > 0 the envelope extractor convolves
the magnitude with the normalized rectangular kernel of length
`max(1, int(smooth_sec * fs))` — Python `int` truncation toward zero, not
rounding — using mode-same centered convolution, whose output keeps the
input length whenever that kernel is no longer than the input (NumPy's mode
`same` otherwise returns the longer, kernel, length); for smooth_sec = 0
smoothing is skipped and the raw magnitude is returned. -/
theorem claim_C8_smoothing_amended (env : List ℚ) (fs smooth_sec : ℚ) :
    (0 < smooth_sec →
      smooth_envelope env fs smooth_sec =
        npConvolveSame env
          (List.replicate ((max 1 (pyTrunc (smooth_sec * fs))).toNat)
            ((1 : ℚ) / (((max 1 (pyTrunc (smooth_sec * fs))).toNat : ℕ) : ℚ))) ∧
      1 ≤ (max 1 (pyTrunc (smooth_sec * fs))).toNat ∧
      ((max 1 (pyTrunc (smooth_sec * fs))).toNat ≤ env.length →
        (smooth_envelope env fs smooth_sec).length = env.length)) ∧
    (smooth_sec = 0 → smooth_envelope env fs smooth_sec = env) := by
  have hker : 1 ≤ (max 1 (pyTrunc (smooth_sec * fs))).toNat := by
    have h := le_max_left (1 : ℤ) (pyTrunc (smooth_sec * fs))
    omega
  constructor
  · intro hpos
    have heq : smooth_envelope env fs smooth_sec =
        npConvolveSame env
          (List.replicate ((max 1 (pyTrunc (smooth_sec * fs))).toNat)
            ((1 : ℚ) / (((max 1 (pyTrunc (smooth_sec * fs))).toNat : ℕ) : ℚ))) := by
      rw [smooth_envelope, if_pos hpos]
    refine ⟨heq, hker, fun hlen => ?_⟩
    rw [heq, npConvolveSame_length]
    · rwa [List.length_replicate]
    · rwa [List.length_replicate]
  · intro h0
    rw [smooth_envelope, if_neg (by rw [h0]; exact lt_irrefl 0)]

/-- Witness for the amended C8: a 3-sample envelope smoothed with
smooth_sec = 2 at fs = 1 uses kernel length 2 and keeps length 3, and
smooth_sec = 0 passes the envelope through. -/
theorem claim_C8_smoothing_amended_witness :
    (smooth_envelope [4, 0, 2] 1 2).length = 3 ∧
    smooth_envelope [4, 0, 2] 1 0 = [4, 0, 2] := by
  have h := claim_C8_smoothing_amended [4, 0, 2] 1 2
  have h2 := (claim_C8_smoothing_amended [4, 0, 2] 1 0).2 rfl
  refine ⟨?_, h2⟩
  have hlen := (h.1 (by norm_num)).2.2
  have hn : (max 1 (pyTrunc ((2 : ℚ) * 1))).toNat = 2 := by
    norm_num [pyTrunc, Int.floor_eq_iff]
    decide
  rw [hn] at hlen
  exact hlen (by norm_num)

/-- Claim C9: both label formatters are total with strict less-than
boundaries; each exact p-value boundary (0.05, 0.01, 0.001) falls to the
lower significance tier, and each exact eta-squared boundary
(0.01, 0.06, 0.14) falls to the higher qualitative tier; NaN (here `none`)
maps to the not-applicable label. -/
theorem claim_C9_label_boundaries (p : ℚ) :
    sig_label none = "n.a." ∧
    (p < 0.001 → sig_label (some p) = "***") ∧
    (0.001 ≤ p → p < 0.01 → sig_label (some p) = "**") ∧
    (0.01 ≤ p → p < 0.05 → sig_label (some p) = "*") ∧
    (0.05 ≤ p → sig_label (some p) = "ns") ∧
    sig_label (some 0.05) = "ns" ∧
    sig_label (some 0.01) = "*" ∧
    sig_label (some 0.001) = "**" ∧
    eta_sq_label none = "n.a." ∧
    (p < 0.01 → eta_sq_label (some p) = "négligeable") ∧
    (0.01 ≤ p → p < 0.06 → eta_sq_label (some p) = "petit") ∧
    (0.06 ≤ p → p < 0.14 → eta_sq_label (some p) = "moyen") ∧
    (0.14 ≤ p → eta_sq_label (some p) = "grand") ∧
    eta_sq_label (some 0.01) = "petit" ∧
    eta_sq_label (some 0.06) = "moyen" ∧
    eta_sq_label (some 0.14) = "grand" := by
  refine ⟨rfl, fun h1 => ?_, fun h1 h2 => ?_, fun h1 h2 => ?_, fun h1 => ?_,
    ?_, ?_, ?_, rfl, fun h1 => ?_, fun h1 h2 => ?_, fun h1 h2 => ?_,
    fun h1 => ?_, ?_, ?_, ?_⟩ <;>
  simp only [sig_label, eta_sq_label] <;>
  split_ifs <;>
  first
    | rfl
    | (exfalso; linarith)

/-- Witness for C9: concrete evaluations through the claim theorem at
p = 0.02 (one star) and eta squared = 0.1 (medium). -/
theorem claim_C9_label_boundaries_witness :
    sig_label (some 0.02) = "*" ∧ eta_sq_label (some 0.1) = "moyen" :=
  ⟨(claim_C9_label_boundaries 0.02).2.2.2.1 (by norm_num) (by norm_num),
   (claim_C9_label_boundaries 0.1).2.2.2.2.2.2.2.2.2.2.2.1 (by norm_num)
     (by norm_num)⟩

end Core
